import Mathlib

/-!
Verification of the strict tree-rule generator of rulegen.cpp.

This file gives a shallow embedding of the parts of rulegen.cpp that the
claims C1..C10 are about, and proves or refutes each claim against the
embedding.  Machine integers are modelled as Int (all quantities involved
stay far from any overflow; the C++ code uses int/short), mutable tile
state is passed explicitly, and recursion that the C++ code performs with
while-loops is modelled with explicit fuel.
-/

namespace Rulegen

/-! ### Constants of rulegen.cpp -/

/-- The sentinel `MYSTERY` used for unset fields. -/
def MYSTERY : Int := 31999

/-- Classification constants of rulegen.cpp (`C_IGNORE` .. `C_PARENT`). -/
def C_IGNORE : Int := 0

def C_CHILD : Int := 1

def C_UNCLE : Int := 2

def C_EQUAL : Int := 4

def C_NEPHEW : Int := 6

def C_PARENT : Int := 8

/-- Special rule codes (`DIR_UNKNOWN` .. `DIR_PARENT`). -/
def DIR_UNKNOWN : Int := -1

def DIR_LEFT : Int := -4

def DIR_RIGHT : Int := -5

def DIR_PARENT : Int := -6

/-! ### C1: the per-entry classification of `id_at_spin` (rulegen.cpp 1151-1197)

`entry_class` embeds the computation of the classification `x` for one
entry of the spread, translated from the body of the `for(auto cs: sprawl)`
loop.  Inputs that the loop reads from the surrounding state are passed
explicitly: `noRelDist` is `flags & w_no_relative_distance`, `pid` is
`a.parent_id[id]`, `pval` is `res.second[pid]` (irrelevant when `pid = -1`),
`idx` is the position `id`, `isChild` is whether the walker at this entry
considers itself a child of its parent under the parent-oracle
(`cs == get_parent_dir(cs)`), `y` is `cs.at->dist - cs.peek()->dist`, and
`gs` is `get_side(cs)`.  `none` models the `rulegen_failure` throw. -/
def classify_x (noRelDist : Bool) (y : Int) : Option Int :=
  if ¬ noRelDist then some C_EQUAL
  else if y = 1 then some C_NEPHEW
  else if y = 0 then some C_EQUAL
  else if y = -1 then some C_UNCLE
  else none

/-- The side adjustment of `id_at_spin`: an `UNCLE` seen on the path
(`gs = 0`) becomes `PARENT`, and the right-side bit is added when
`gs > 0`. -/
def apply_side (gs x : Int) : Int :=
  let x1 := if gs = 0 ∧ x = C_UNCLE then C_PARENT else x
  if gs > 0 then x1 + 1 else x1

/-- One entry of the code computed by `id_at_spin`. -/
def entry_class (noRelDist : Bool) (pid pval : Int) (idx : Nat) (isChild : Bool)
    (y gs : Int) : Option Int :=
  if pid > -1 ∧ pval ≠ C_CHILD then some C_IGNORE
  else if idx = 0 then some C_CHILD
  else if isChild then some C_CHILD
  else (classify_x noRelDist y).map (apply_side gs)

/-! ### C2: resolution of `DIR_UNKNOWN` rules in `gen_rule` (rulegen.cpp 1278-1289)

`resolve_unknown` embeds the final loop of `gen_rule`: `val` is the
classification stored at position `i+1` of the state's code; `none`
models the `rulegen_retry` throw for a value outside the accepted range. -/
def resolve_unknown (val : Int) : Option Int :=
  if val < 2 ∨ val ≥ 8 then none
  else some (if val % 2 = 1 then DIR_RIGHT else DIR_LEFT)

/-! ### C7: the driver loop of `generate_rules` (rulegen.cpp 1905-1914)

The body `rules_iteration` is abstracted as a function from the value of
`try_count` (which `rules_iteration` increments at its entry) to a result;
`check_timeout` at the top of the loop is abstracted as a predicate on the
attempt number.  `none` models running out of fuel (the C++ loop has no
bound of its own). -/
inductive GErr where
  | retry
  | surrender
  | failure
deriving DecidableEq

/-- The retry loop of `generate_rules`.  `tc` is the current value of
`try_count`; each pass increments it (inside `rules_iteration`), so the
body is consulted at `tc + 1`. -/
def driver (iter : Nat → Except GErr Unit) (timeout : Nat → Bool)
    (maxRetries : Nat) : Nat → Nat → Option (Except GErr Unit)
  | 0, _ => none
  | fuel + 1, tc =>
    if timeout tc then some (.error .surrender)
    else
      match iter (tc + 1) with
      | .ok _ => some (.ok ())
      | .error .retry =>
          if maxRetries ≤ tc + 1 then some (.error .retry)
          else driver iter timeout maxRetries fuel (tc + 1)
      | .error e => some (.error e)

/-! ### C3/C4: the candidate priority of `get_parent_dir` (rulegen.cpp 846-930)

`beats` is the lambda of `get_parent_dir` (with `k = cycle_length`);
`scan_best` is the cheap scan `for(auto ne: nearer) if(beats(ne, bestd))
bestd = ne;` starting from `bestd = -1`; `scan_failed` is the subsequent
ambiguity check `for(auto ne: nearer) if(ne != bestd && beats(ne, bestd))
failed = true;`. -/
def beats (k i old : Int) : Bool :=
  if old = -1 then true
  else if i % k ≠ old % k then decide (i % k < old % k)
  else true

def scan_best (k : Int) (nearer : List Int) : Int :=
  nearer.foldl (fun old ne => if beats k ne old then ne else old) (-1)

def scan_failed (k : Int) (nearer : List Int) : Bool :=
  nearer.any fun ne =>
    decide (ne ≠ scan_best k nearer) && beats k ne (scan_best k nearer)

/-- The exhaustive tie-break resolution of `get_parent_dir`
(`bestd = nearer[0]; for(auto ne1: nearer) if(ne1 != bestd &&
beats_exhaustive(...)) bestd = ne1;`), with `beats_exhaustive` abstracted
as the oracle `exh`.  `none` models the out-of-range access on an empty
candidate list. -/
def resolve_exhaustive (exh : Int → Int → Bool) (nearer : List Int) : Option Int :=
  match nearer with
  | [] => none
  | n0 :: _ =>
      some (nearer.foldl
        (fun best ne1 => if ne1 ≠ best ∧ exh ne1 best = true then ne1 else best) n0)

/-- The decision structure of `get_parent_dir`: `pd` is the cached
`parent_dir`, `dist` the tile's distance, `k` the cycle length, `nearer`
the strictly-nearer directions collected by the scan over the edges, and
`exh` the `beats_exhaustive` oracle.  The result is the pair (returned
spin, cached `parent_dir` afterwards); `none` models the throws
(`still confused`, `should not happen`) and the empty-candidate access.
The `be_solid`/`ufind` re-entrancy guards act on state that is fixed here,
and the `old_parent_dir` shortcut side effect does not affect the result. -/
def get_parent_dir_model (pAlways pNever : Bool) (pd dist k : Int)
    (nearer : List Int) (exh : Int → Int → Bool) : Option (Int × Int) :=
  if pd ≠ MYSTERY then some (pd, pd)
  else
    let bestd? : Option Int :=
      if dist > 0 then
        if pAlways then resolve_exhaustive exh nearer
        else
          if scan_failed k nearer then
            if pNever then none else resolve_exhaustive exh nearer
          else some (scan_best k nearer)
      else some (-1)
    match bestd? with
    | none => none
    | some b => if dist > 0 ∧ b = -1 then none else some (b, b)

/-- The direction component of `get_code` (rulegen.cpp 1201-1216): on the
cached path a `parent_dir` of `-1` is turned into `0`; on the fresh path a
tile with `dist = 0` uses the walker `twalker(c, 0)`, i.e. direction `0`,
and any other tile uses the spin of `get_parent_dir` (`freshSpin`). -/
def get_code_dir_model (code pd dist freshSpin : Int) : Int :=
  if code ≠ MYSTERY ∧ pd ≠ MYSTERY then (if pd = -1 then 0 else pd)
  else if dist = 0 then 0 else freshSpin

/-! ### Theorems for C3 -/

/-- The priority `beats` holds iff there is no incumbent or the residue of the new
candidate is at most the incumbent's residue — ties also beat. -/
theorem beats_iff (k i old : Int) :
    beats k i old = true ↔ (old = -1 ∨ i % k ≤ old % k) := by
  unfold beats
  by_cases h1 : old = -1
  · simp [h1]
  · by_cases h2 : i % k = old % k
    · simp [h1, h2]
    · simp only [h1, if_false, h2, ne_eq, not_false_eq_true, if_true,
        decide_eq_true_eq, false_or]
      omega

theorem scan_best_append (k : Int) (l : List Int) (x : Int) :
    scan_best k (l ++ [x]) =
      if beats k x (scan_best k l) then x else scan_best k l := by
  simp [scan_best, List.foldl_append]

/-- Characterization of the cheap scan: it returns a member of `nearer`
whose residue mod `k` is minimal, namely the *last* member attaining the
minimal residue (every later member has a strictly larger residue). -/
theorem scan_best_spec (k : Int) (l : List Int) (hne : l ≠ [])
    (h0 : ∀ x ∈ l, 0 ≤ x) :
    scan_best k l ∈ l ∧ (∀ x ∈ l, scan_best k l % k ≤ x % k) ∧
      ∃ l1 l2, l = l1 ++ scan_best k l :: l2 ∧
        ∀ x ∈ l2, scan_best k l % k < x % k := by
  induction l using List.reverseRecOn with
  | nil => exact absurd rfl hne
  | append_singleton l' x ih =>
    by_cases hl' : l' = []
    · subst hl'
      have hx : scan_best k ([] ++ [x]) = x := by
        simp [scan_best, beats]
      rw [hx]
      refine ⟨by simp, by simp, [], [], by simp, by simp⟩
    · have h0' : ∀ y ∈ l', 0 ≤ y := fun y hy => h0 y (by simp [hy])
      obtain ⟨hmem, hmin, l1, l2, hsplit, hlast⟩ := ih hl' h0'
      have hb0 : 0 ≤ scan_best k l' := h0' _ hmem
      have hbne : scan_best k l' ≠ -1 := by omega
      rw [scan_best_append]
      by_cases hbx : beats k x (scan_best k l') = true
      · have hle : x % k ≤ scan_best k l' % k := by
          rcases (beats_iff k x (scan_best k l')).mp hbx with h | h
          · exact absurd h hbne
          · exact h
        rw [if_pos hbx]
        refine ⟨by simp, ?_, l', [], by simp, by simp⟩
        intro y hy
        rcases List.mem_append.mp hy with hy | hy
        · exact le_trans hle (hmin y hy)
        · simp at hy
          subst hy
          exact le_refl _
      · have hlt : scan_best k l' % k < x % k := by
          have := (beats_iff k x (scan_best k l')).not.mp (by simp [hbx])
          push_neg at this
          omega
        rw [if_neg hbx]
        refine ⟨by simp [hmem], ?_, l1, l2 ++ [x], ?_, ?_⟩
        · intro y hy
          rcases List.mem_append.mp hy with hy | hy
          · exact hmin y hy
          · simp at hy
            subst hy
            omega
        · conv_lhs => rw [hsplit]
          simp
        · intro y hy
          rcases List.mem_append.mp hy with hy | hy
          · exact hlast y hy
          · simp at hy
            subst hy
            exact hlt

/-- The ambiguity flag is set iff some other candidate attains the minimal
residue: exactly when at least two candidates share the minimal residue. -/
theorem scan_failed_iff (k : Int) (l : List Int) (hne : l ≠ [])
    (h0 : ∀ x ∈ l, 0 ≤ x) :
    scan_failed k l = true ↔
      ∃ x ∈ l, x ≠ scan_best k l ∧ x % k = scan_best k l % k := by
  obtain ⟨hmem, hmin, -⟩ := scan_best_spec k l hne h0
  have hbne : scan_best k l ≠ -1 := by have := h0 _ hmem; omega
  unfold scan_failed
  rw [List.any_eq_true]
  constructor
  · rintro ⟨x, hx, hcond⟩
    rw [Bool.and_eq_true, decide_eq_true_iff] at hcond
    obtain ⟨hxne, hbeats⟩ := hcond
    rcases (beats_iff k x (scan_best k l)).mp hbeats with h | h
    · exact absurd h hbne
    · exact ⟨x, hx, hxne, le_antisymm h (hmin x hx)⟩
  · rintro ⟨x, hx, hxne, hres⟩
    refine ⟨x, hx, ?_⟩
    rw [Bool.and_eq_true, decide_eq_true_iff]
    exact ⟨hxne, (beats_iff k x (scan_best k l)).mpr (Or.inr (le_of_eq hres))⟩

/-- C3 counterexample to the claim as stated.  With cycle length 3,
candidate 5 "beats" incumbent 2 although their residues are equal (the
claim demands `i mod k < j mod k`), and in the scan the later candidate 5
displaces the earlier candidate 2 of the same residue (the claim says the
existing candidate wins the tie). -/
theorem c3_counterexample :
    beats 3 5 2 = true ∧ ¬ (5 % 3 < 2 % 3 : Prop) ∧
      scan_best 3 [2, 5] = 5 ∧ (5 : Int) ≠ 2 := by
  refine ⟨by decide, by decide, by decide, by decide⟩

/-- C3, amended.  In `get_parent_dir`, candidate `i` beats the
incumbent `j` iff there is no incumbent or `(i mod k) ≤ (j mod k)` — so on
a tie the later candidate *displaces* the earlier one; the cheap scan
returns the last candidate attaining the minimal residue mod `k`; the
ambiguity flag (`failed`) is raised exactly when a second candidate attains
the minimal residue; consequently the cheap scan produces a unique,
unambiguous winner whenever no two candidates share a residue. -/
theorem c3_amended (k : Int) (l : List Int) (hne : l ≠ [])
    (h0 : ∀ x ∈ l, 0 ≤ x) :
    (∀ i old : Int, beats k i old = true ↔ (old = -1 ∨ i % k ≤ old % k)) ∧
    scan_best k l ∈ l ∧
    (∀ x ∈ l, scan_best k l % k ≤ x % k) ∧
    (∃ l1 l2, l = l1 ++ scan_best k l :: l2 ∧
      ∀ x ∈ l2, scan_best k l % k < x % k) ∧
    (scan_failed k l = true ↔
      ∃ x ∈ l, x ≠ scan_best k l ∧ x % k = scan_best k l % k) ∧
    ((∀ x ∈ l, ∀ y ∈ l, x % k = y % k → x = y) → scan_failed k l = false) := by
  obtain ⟨hmem, hmin, hlast⟩ := scan_best_spec k l hne h0
  refine ⟨beats_iff k, hmem, hmin, hlast, scan_failed_iff k l hne h0, ?_⟩
  intro hinj
  rw [← Bool.not_eq_true, scan_failed_iff k l hne h0]
  rintro ⟨x, hx, hxne, hres⟩
  exact hxne (hinj x hx _ hmem hres)

/-- Witness for C3 at cycle length 3, candidates `[1, 3, 5]` (distinct residues
1, 0, 2): the scan picks 3 and no ambiguity is flagged. -/
theorem c3_amended_witness :
    scan_best 3 [1, 3, 5] ∈ [(1 : Int), 3, 5] ∧
      scan_failed 3 [1, 3, 5] = false := by
  have h := c3_amended 3 [1, 3, 5] (by decide) (by decide)
  exact ⟨h.2.1, h.2.2.2.2.2 (by decide)⟩

/-! ### Theorems for C4 -/

/-- C4 counterexample to the claim as stated.  A fresh root tile
(`dist = 0`, `parent_dir` unset): `get_parent_dir` returns direction `-1`
and caches `-1`, not `0` as claimed. -/
theorem c4_counterexample :
    get_parent_dir_model false false MYSTERY 0 3 [] (fun _ _ => false) =
      some (-1, -1) ∧ ((-1 : Int) ≠ 0) := by
  refine ⟨rfl, by decide⟩

/-- C4, amended.  For a root (`dist = 0`), `get_parent_dir` leaves
`bestd` at its initial value `-1`: it returns direction `-1` and caches
`parent_dir = -1`.  It is `get_code` that maps this to direction `0`: on
its cached path a `parent_dir` of `-1` is replaced by `0`, and on its fresh
path a `dist = 0` tile uses the walker at spin `0` directly. -/
theorem c4_amended (pAlways pNever : Bool) (k : Int) (nearer : List Int)
    (exh : Int → Int → Bool) (code pd freshSpin : Int) :
    get_parent_dir_model pAlways pNever MYSTERY 0 k nearer exh =
      some (-1, -1) ∧
    (code ≠ MYSTERY → get_code_dir_model code (-1) 0 freshSpin = 0) ∧
    get_code_dir_model MYSTERY pd 0 freshSpin = 0 := by
  refine ⟨?_, ?_, ?_⟩
  · simp [get_parent_dir_model]
  · intro h
    simp [get_code_dir_model, h, MYSTERY]
  · simp [get_code_dir_model]

/-- Witness for C4 at a concrete instance. -/
theorem c4_amended_witness :
    get_parent_dir_model true false MYSTERY 0 4 [0, 2] (fun _ _ => true) =
      some (-1, -1) ∧
    get_code_dir_model 7 (-1) 0 5 = 0 ∧
    get_code_dir_model MYSTERY (-1) 0 5 = 0 := by
  have h := c4_amended true false 4 [0, 2] (fun _ _ => true) 7 (-1) 5
  exact ⟨h.1, h.2.1 (by decide), h.2.2⟩

/-! ### Theorems for C1 and C2 -/


/-- C1, code bug.  Evaluating the embedded classification at the failing
input: under the default configuration (`w_no_relative_distance` NOT set),
a non-root entry whose parent entry is CHILD and which is not itself a
child, with distance delta `Δ = 1` and side `0`, is classified `C_EQUAL`,
not `C_NEPHEW` as the claim (and the flag's own documentation, which says
the flag *disables* relative distances) requires: the code collapses the
relative-distance classification exactly when the flag is NOT set. -/
theorem c1_code_eval :
    entry_class false 0 C_CHILD 1 false 1 0 = some C_EQUAL ∧
    entry_class true 0 C_CHILD 1 false 1 0 = some C_NEPHEW ∧
    C_EQUAL ≠ C_NEPHEW := by
  refine ⟨rfl, rfl, by decide⟩

/-- C2, code bug.  Evaluating the embedded resolution at the failing
input: the classification `C_PARENT = 8` (side bit 0), a value that
`id_at_spin` produces (`if(gs == 0 && x == C_UNCLE) x = C_PARENT`), is
rejected with a retry by `gen_rule` (`val < 2 || val >= 8`), while the claim
says every element of EQUAL/NEPHEW/UNCLE/PARENT with either side bit is
accepted; the in-range values are resolved by the side bit as claimed. -/
theorem c2_code_eval :
    resolve_unknown C_PARENT = none ∧
    resolve_unknown (C_PARENT + 1) = none ∧
    resolve_unknown C_UNCLE = some DIR_LEFT ∧
    resolve_unknown (C_UNCLE + 1) = some DIR_RIGHT ∧
    resolve_unknown C_EQUAL = some DIR_LEFT ∧
    resolve_unknown (C_NEPHEW + 1) = some DIR_RIGHT := by
  refine ⟨rfl, rfl, rfl, rfl, rfl, rfl⟩

/-! ### Theorem for C7 -/

/-- C7, confirmed.  The driver of `generate_rules` (i) lets a
`Surrender` from the iteration propagate immediately, never catching it,
(ii) restarts the iteration on a `Retry` as long as `try_count` (already
incremented by the iteration) is below `max_retries`, and (iii) propagates
the `Retry` out once `try_count` has reached `max_retries`.  A plain
`failure` is likewise not caught. -/
theorem c7_driver (iter : Nat → Except GErr Unit) (timeout : Nat → Bool)
    (maxRetries fuel tc : Nat) (hnt : timeout tc = false) :
    (iter (tc + 1) = .error .surrender →
      driver iter timeout maxRetries (fuel + 1) tc = some (.error .surrender)) ∧
    (iter (tc + 1) = .error .retry → tc + 1 < maxRetries →
      driver iter timeout maxRetries (fuel + 1) tc =
        driver iter timeout maxRetries fuel (tc + 1)) ∧
    (iter (tc + 1) = .error .retry → maxRetries ≤ tc + 1 →
      driver iter timeout maxRetries (fuel + 1) tc = some (.error .retry)) ∧
    (iter (tc + 1) = .error .failure →
      driver iter timeout maxRetries (fuel + 1) tc = some (.error .failure)) := by
  refine ⟨?_, ?_, ?_, ?_⟩ <;> intro h1 <;> try intro h2
  · simp [driver, hnt, h1]
  · simp [driver, hnt, h1, Nat.not_le.mpr h2]
  · simp [driver, hnt, h1, h2]
  · simp [driver, hnt, h1]

/-- Witness for C7 at a concrete instance: one retry below the cap
restarts, surrender aborts. -/
theorem c7_driver_witness :
    (driver (fun _ => .error .retry) (fun _ => false) 5 (3 + 1) 0 =
      driver (fun _ => .error .retry) (fun _ => false) 5 3 (0 + 1)) ∧
    (driver (fun _ => .error .surrender) (fun _ => false) 5 (3 + 1) 0 =
      some (.error .surrender)) := by
  constructor
  · exact (c7_driver (fun _ => .error .retry) (fun _ => false) 5 3 0 rfl).2.1 rfl
      (by decide)
  · exact (c7_driver (fun _ => .error .surrender) (fun _ => false) 5 3 0 rfl).1 rfl

/-! ### C10/C6: the union-find on tcells (`ufind`, rulegen.cpp 151-157, and
`unify`, rulegen.cpp 352-396)

A walker is a pair (tile, spin); `UFGeom` holds the immutable data read
from the arena and the tessellation (`tcell::type`, `tcell::id`,
`shapes[id].cycle_length`), `UFState` the mutable `unified_to` links.
Walker plus int (`p1 + p.spin`, `pw1 - pw2.spin`) reduces the spin modulo
the degree of the tile, as `walker::operator+` does via `gmod`. -/
structure UFLink where
  tile : Nat
  spin : Int
deriving DecidableEq

structure UFGeom where
  degree : Nat → Nat
  shape : Nat → Nat
  cycle : Nat → Int

structure UFState where
  link : Nat → UFLink

/-- Walker plus int (`walker + d`): rotate the spin modulo the degree of the tile. -/
def wadd (g : UFGeom) (w : UFLink) (d : Int) : UFLink :=
  ⟨w.tile, (w.spin + d) % (g.degree w.tile : Int)⟩

/-- The function `ufind` (rulegen.cpp 151-157): if the tile is not its own
representative, recursively resolve the link, path-compress the tile's
`unified_to` to the resolved walker, and forward the walker by its spin
(`p = p1 + p.spin`).  The C++ recursion is modelled with fuel. -/
def ufind (g : UFGeom) : Nat → UFState → UFLink → UFState × UFLink
  | 0, st, p => (st, p)
  | fuel + 1, st, p =>
    if (st.link p.tile).tile = p.tile then (st, p)
    else
      (⟨fun a => if a = p.tile then (ufind g fuel st (st.link p.tile)).2
                 else (ufind g fuel st (st.link p.tile)).1.link a⟩,
       wadd g (ufind g fuel st (st.link p.tile)).2 p.spin)

/-- The `unified_to` chain from `a` hits a self-looping representative
within `fuel` steps. -/
def reaches (st : UFState) : Nat → Nat → Bool
  | 0, a => decide ((st.link a).tile = a)
  | fuel + 1, a =>
    if (st.link a).tile = a then true else reaches st fuel (st.link a).tile

/-- The denotation of a walker: follow the `unified_to` links, accumulating
the rotations, without mutating anything.  Two walkers denote the same cell
of the universal cover iff they resolve to the same walker. -/
def resolveW (g : UFGeom) (st : UFState) : Nat → UFLink → UFLink
  | 0, p => p
  | fuel + 1, p =>
    if (st.link p.tile).tile = p.tile then p
    else resolveW g st fuel (wadd g (st.link p.tile) p.spin)

/-- The representative tile at the end of the `unified_to` chain. -/
def chainRep (st : UFState) : Nat → Nat → Nat
  | 0, a => a
  | fuel + 1, a =>
    if (st.link a).tile = a then a else chainRep st fuel (st.link a).tile

/-- Tiles in one union-find class have equal degree (they have equal shape
id; `unify` enforces this). -/
def TypeInv (g : UFGeom) (st : UFState) : Prop :=
  ∀ a, g.degree (st.link a).tile = g.degree a

theorem emod_add_right_emod (t u m : Int) : (t + u % m) % m = (t + u) % m := by
  conv_rhs => rw [Int.add_emod]
  rw [Int.add_emod, Int.emod_emod_of_dvd u dvd_rfl]

theorem emod_add_left_emod (u s m : Int) : (u % m + s) % m = (u + s) % m := by
  conv_rhs => rw [Int.add_emod]
  rw [Int.add_emod, Int.emod_emod_of_dvd u dvd_rfl]

theorem resolveW_tile (g : UFGeom) (st : UFState) :
    ∀ fuel p, (resolveW g st fuel p).tile = chainRep st fuel p.tile := by
  intro fuel
  induction fuel with
  | zero => intro p; rfl
  | succ f ih =>
    intro p
    by_cases h : (st.link p.tile).tile = p.tile
    · simp [resolveW, chainRep, h]
    · simp only [resolveW, chainRep, h, if_false, ih, wadd]

theorem reaches_rep (st : UFState) :
    ∀ fuel a, reaches st fuel a = true →
      (st.link (chainRep st fuel a)).tile = chainRep st fuel a := by
  intro fuel
  induction fuel with
  | zero =>
    intro a hr
    simpa [reaches, chainRep] using hr
  | succ f ih =>
    intro a hr
    by_cases h : (st.link a).tile = a
    · simp [chainRep, h]
    · simp only [reaches, h, if_false] at hr
      simp only [chainRep, h, if_false]
      exact ih _ hr

/-- Resolution commutes with walker rotation (needs equal degrees along
the chain). -/
theorem resolveW_wadd (g : UFGeom) (st : UFState) (hty : TypeInv g st) :
    ∀ fuel q s, resolveW g st fuel (wadd g q s) =
      wadd g (resolveW g st fuel q) s := by
  intro fuel
  induction fuel with
  | zero => intro q s; rfl
  | succ f ih =>
    intro q s
    by_cases h : (st.link q.tile).tile = q.tile
    · simp [resolveW, wadd, h]
    · have hXY : wadd g (st.link q.tile) ((wadd g q s).spin) =
          wadd g (wadd g (st.link q.tile) q.spin) s := by
        have hm := hty q.tile
        simp only [wadd, hm]
        congr 1
        rw [emod_add_right_emod, emod_add_left_emod]
        congr 1
        ring
      calc resolveW g st (f + 1) (wadd g q s)
          = resolveW g st f (wadd g (st.link q.tile) ((wadd g q s).spin)) := by
            simp only [resolveW, wadd, h, if_false]
        _ = resolveW g st f (wadd g (wadd g (st.link q.tile) q.spin) s) := by
            rw [hXY]
        _ = wadd g (resolveW g st f (wadd g (st.link q.tile) q.spin)) s := ih _ s
        _ = wadd g (resolveW g st (f + 1) q) s := by
            simp only [resolveW, h, if_false]

theorem ufind_zero (g : UFGeom) (st : UFState) (p : UFLink) :
    ufind g 0 st p = (st, p) := rfl

theorem ufind_succ_rep (g : UFGeom) (f : Nat) (st : UFState) (p : UFLink)
    (h : (st.link p.tile).tile = p.tile) : ufind g (f + 1) st p = (st, p) := by
  simp [ufind, h]

/-- Main specification of `ufind`: the returned walker is the full
resolution of the input (in the *unmutated* state), and the links of all
representatives are untouched by the path compression. -/
theorem ufind_spec (g : UFGeom) :
    ∀ fuel st p, TypeInv g st → reaches st fuel p.tile = true →
      (ufind g fuel st p).2 = resolveW g st fuel p ∧
      (∀ a, (st.link a).tile = a → (ufind g fuel st p).1.link a = st.link a) := by
  intro fuel
  induction fuel with
  | zero => intro st p _ _; exact ⟨rfl, fun a _ => rfl⟩
  | succ f ih =>
    intro st p hty hr
    by_cases h : (st.link p.tile).tile = p.tile
    · rw [ufind_succ_rep g f st p h]
      constructor
      · simp [resolveW, h]
      · intro a _; rfl
    · have hr' : reaches st f (st.link p.tile).tile = true := by
        simpa [reaches, h] using hr
      obtain ⟨ih1, ih2⟩ := ih st (st.link p.tile) hty hr'
      constructor
      · show (ufind g (f + 1) st p).2 = _
        simp only [ufind, h, if_false, ih1]
        rw [show resolveW g st (f + 1) p
              = resolveW g st f (wadd g (st.link p.tile) p.spin) by
            simp only [resolveW, h, if_false]]
        rw [resolveW_wadd g st hty f (st.link p.tile) p.spin]
      · intro a ha
        have hane : a ≠ p.tile := by
          intro hcontra
          rw [hcontra] at ha
          exact h ha
        simp only [ufind, h, if_false, hane, ite_false]
        exact ih2 a ha

/-- The resolution of a walker ends at a representative (in the original
state). -/
theorem resolveW_rep (g : UFGeom) (st : UFState) (fuel : Nat) (p : UFLink)
    (hr : reaches st fuel p.tile = true) :
    (st.link (resolveW g st fuel p).tile).tile = (resolveW g st fuel p).tile := by
  rw [resolveW_tile g st fuel p]
  exact reaches_rep st fuel p.tile hr

/-- C10, confirmed.  For a walker whose `unified_to` chain reaches a
self-looping representative: after `ufind`, the walker's tile is that
representative (and it still self-loops in the compressed state), the
walker equals the full resolution of the input — its spin has accumulated
the rotations of the chain, so it denotes the same cell of the universal
cover — and `ufind` is idempotent: calling it again on the result changes
neither the state nor the walker. -/
theorem c10_ufind (g : UFGeom) (fuel : Nat) (st : UFState) (p : UFLink)
    (hty : TypeInv g st) (hr : reaches st fuel p.tile = true) :
    (ufind g fuel st p).2 = resolveW g st fuel p ∧
    (ufind g fuel st p).2.tile = chainRep st fuel p.tile ∧
    ((ufind g fuel st p).1.link (ufind g fuel st p).2.tile).tile =
      (ufind g fuel st p).2.tile ∧
    ufind g fuel (ufind g fuel st p).1 (ufind g fuel st p).2 =
      ufind g fuel st p := by
  obtain ⟨h1, h2⟩ := ufind_spec g fuel st p hty hr
  have hrep : (st.link (ufind g fuel st p).2.tile).tile =
      (ufind g fuel st p).2.tile := by
    rw [h1]
    exact resolveW_rep g st fuel p hr
  have hpres : (ufind g fuel st p).1.link (ufind g fuel st p).2.tile =
      st.link (ufind g fuel st p).2.tile := h2 _ hrep
  have hrep' : ((ufind g fuel st p).1.link (ufind g fuel st p).2.tile).tile =
      (ufind g fuel st p).2.tile := by rw [hpres]; exact hrep
  refine ⟨h1, by rw [h1]; exact resolveW_tile g st fuel p, hrep', ?_⟩
  cases fuel with
  | zero => rfl
  | succ f =>
    rw [ufind_succ_rep g f _ _ hrep']

/-- Concrete arena for the C10 witness: three tiles of degree 3, tile 2
united into tile 1 with rotation 1, tile 1 united into tile 0 with
rotation 2, tile 0 a representative. -/
def cg10 : UFGeom := ⟨fun _ => 3, fun _ => 0, fun _ => 3⟩

def cst10 : UFState :=
  ⟨fun a => if a = 1 then ⟨0, 2⟩ else if a = 2 then ⟨1, 1⟩ else ⟨a, 0⟩⟩

/-- Witness for C10 on the concrete three-tile arena. -/
theorem c10_ufind_witness :
    (ufind cg10 3 cst10 ⟨2, 1⟩).2 = resolveW cg10 cst10 3 ⟨2, 1⟩ ∧
    (ufind cg10 3 cst10 ⟨2, 1⟩).2.tile = chainRep cst10 3 2 ∧
    ufind cg10 3 (ufind cg10 3 cst10 ⟨2, 1⟩).1 (ufind cg10 3 cst10 ⟨2, 1⟩).2 =
      ufind cg10 3 cst10 ⟨2, 1⟩ := by
  have h := c10_ufind cg10 3 cst10 ⟨2, 1⟩ (fun a => rfl) (by decide)
  exact ⟨h.1, h.2.1, h.2.2.2⟩

/-! ### C6: `unify` (rulegen.cpp 352-396)

`unifyM` embeds the union step.  The error constructors model the four
`hr_exception` throws (all fatal, i.e. not `rulegen_retry`), in source
order.  `unify_distances` and the edge-reconnection loop act only on
fields outside this state (`dist`, the edge table) and defer nested
unifications to `fix_queue`; the spins of `pw1`/`pw2` are incremented
`size()` times by the loop, i.e. return to their original values modulo
the degree, so the final assignment `pw2.at->unified_to = pw1 - pw2.spin`
uses the original post-`ufind` walkers; it is the only link mutation. -/
inductive UnifyErr where
  | bugNotUnifiedToItself
  | bugSelfWrongDirection
  | bugDifferentIds
  | bugCycleLength
deriving DecidableEq

def unifyM (g : UFGeom) (fuel : Nat) (st : UFState) (w1 w2 : UFLink) :
    Except UnifyErr UFState :=
  let pw1 := (ufind g fuel st w1).2
  let st1 := (ufind g fuel st w1).1
  let pw2 := (ufind g fuel st1 w2).2
  let st2 := (ufind g fuel st1 w2).1
  if pw1 = pw2 then .ok st2
  else if (st2.link pw1.tile).tile ≠ pw1.tile then .error .bugNotUnifiedToItself
  else if (st2.link pw2.tile).tile ≠ pw2.tile then .error .bugNotUnifiedToItself
  else if pw1.tile = pw2.tile then .error .bugSelfWrongDirection
  else if g.shape pw1.tile ≠ g.shape pw2.tile then .error .bugDifferentIds
  else if (pw1.spin - pw2.spin) % g.cycle (g.shape pw1.tile) ≠ 0 then
    .error .bugCycleLength
  else .ok ⟨fun a => if a = pw2.tile then wadd g pw1 (-pw2.spin) else st2.link a⟩

def errOf {α : Type} : Except UnifyErr α → Option UnifyErr
  | .error x => some x
  | .ok _ => none

def okLink (e : Except UnifyErr UFState) (a : Nat) : Option UFLink :=
  match e with
  | .ok st => some (st.link a)
  | .error _ => none

theorem ufind_rep_id (g : UFGeom) (fuel : Nat) (st : UFState) (p : UFLink)
    (h : (st.link p.tile).tile = p.tile) : ufind g fuel st p = (st, p) := by
  cases fuel with
  | zero => rfl
  | succ f => exact ufind_succ_rep g f st p h

/-- Concrete arena for C6: square tiles (degree 4) of one shape with
cycle length 2; every tile is its own representative. -/
def cg6 : UFGeom := ⟨fun _ => 4, fun _ => 0, fun _ => 2⟩

def cst6 : UFState := ⟨fun a => ⟨a, 0⟩⟩

/-- C6 counterexample to the claim as stated.  The walkers
`(tile 0, spin 0)` and `(tile 0, spin 2)` are distinct after path
compression, have equal shape ids, and their spin difference `-2` is
divisible by the cycle length 2 — the claim's preconditions hold — yet
`unify` throws the fatal `called unify with self and wrong direction`
instead of setting the `unified_to` link. -/
theorem c6_counterexample :
    errOf (unifyM cg6 1 cst6 ⟨0, 0⟩ ⟨0, 2⟩) = some .bugSelfWrongDirection ∧
    cg6.shape 0 = cg6.shape 0 ∧
    ((0 : Int) - 2) % cg6.cycle (cg6.shape 0) = 0 ∧
    (⟨0, 0⟩ : UFLink) ≠ ⟨0, 2⟩ := by
  refine ⟨by decide, rfl, by decide, by decide⟩

/-- C6, amended.  For two distinct post-compression walkers (tiles
already representatives): if the shape ids differ, `unify` fails with a
fatal error; if the tiles coincide (with different spins), it *also* fails
with a fatal error; if the tiles differ, ids agree, but the spin
difference is not divisible by the cycle length, it fails with a fatal
error; and when the tiles differ, the ids agree and the spin difference is
divisible, it sets `w2.tile`'s `unified_to` link to `w1 − w2.spin`, leaving
`w1.tile`'s self-link untouched, so `w1.tile` is the representative. -/
theorem c6_amended (g : UFGeom) (fuel : Nat) (st : UFState) (w1 w2 : UFLink)
    (hrep1 : (st.link w1.tile).tile = w1.tile)
    (hrep2 : (st.link w2.tile).tile = w2.tile)
    (hne : w1 ≠ w2) :
    (g.shape w1.tile ≠ g.shape w2.tile →
      errOf (unifyM g fuel st w1 w2) = some .bugDifferentIds) ∧
    (w1.tile = w2.tile →
      errOf (unifyM g fuel st w1 w2) = some .bugSelfWrongDirection) ∧
    (w1.tile ≠ w2.tile → g.shape w1.tile = g.shape w2.tile →
      (w1.spin - w2.spin) % g.cycle (g.shape w1.tile) ≠ 0 →
      errOf (unifyM g fuel st w1 w2) = some .bugCycleLength) ∧
    (w1.tile ≠ w2.tile → g.shape w1.tile = g.shape w2.tile →
      (w1.spin - w2.spin) % g.cycle (g.shape w1.tile) = 0 →
      okLink (unifyM g fuel st w1 w2) w2.tile = some (wadd g w1 (-w2.spin)) ∧
      okLink (unifyM g fuel st w1 w2) w1.tile = some (st.link w1.tile)) := by
  have hu : unifyM g fuel st w1 w2 =
      (if w1 = w2 then .ok st
       else if (st.link w1.tile).tile ≠ w1.tile then
         .error .bugNotUnifiedToItself
       else if (st.link w2.tile).tile ≠ w2.tile then
         .error .bugNotUnifiedToItself
       else if w1.tile = w2.tile then .error .bugSelfWrongDirection
       else if g.shape w1.tile ≠ g.shape w2.tile then .error .bugDifferentIds
       else if (w1.spin - w2.spin) % g.cycle (g.shape w1.tile) ≠ 0 then
         .error .bugCycleLength
       else .ok ⟨fun a => if a = w2.tile then wadd g w1 (-w2.spin)
                          else st.link a⟩) := by
    simp only [unifyM, ufind_rep_id g fuel st w1 hrep1,
      ufind_rep_id g fuel st w2 hrep2]
  refine ⟨?_, ?_, ?_, ?_⟩
  · intro hid
    have htile : w1.tile ≠ w2.tile := fun hc => hid (by rw [hc])
    rw [hu, if_neg hne, if_neg (not_ne_iff.mpr hrep1),
      if_neg (not_ne_iff.mpr hrep2), if_neg htile, if_pos hid]
    rfl
  · intro htile
    rw [hu, if_neg hne, if_neg (not_ne_iff.mpr hrep1),
      if_neg (not_ne_iff.mpr hrep2), if_pos htile]
    rfl
  · intro htile hid hdvd
    rw [hu, if_neg hne, if_neg (not_ne_iff.mpr hrep1),
      if_neg (not_ne_iff.mpr hrep2), if_neg htile,
      if_neg (not_ne_iff.mpr hid), if_pos hdvd]
    rfl
  · intro htile hid hdvd
    rw [hu, if_neg hne, if_neg (not_ne_iff.mpr hrep1),
      if_neg (not_ne_iff.mpr hrep2), if_neg htile,
      if_neg (not_ne_iff.mpr hid), if_neg (not_ne_iff.mpr hdvd)]
    constructor
    · simp [okLink]
    · simp [okLink, htile]

/-- Witness for C6 at a concrete success instance: tiles 0 and 1, spins 1
and 3, spin difference `-2` divisible by cycle length 2: the link of
tile 1 is set to `w1 - 3 = (tile 0, spin 2)` and tile 0 stays a
self-linked representative. -/
theorem c6_amended_witness :
    okLink (unifyM cg6 1 cst6 ⟨0, 1⟩ ⟨1, 3⟩) 1 =
      some (wadd cg6 ⟨0, 1⟩ (-3)) ∧
    okLink (unifyM cg6 1 cst6 ⟨0, 1⟩ ⟨1, 3⟩) 0 = some (cst6.link 0) := by
  have h := (c6_amended cg6 1 cst6 ⟨0, 1⟩ ⟨1, 3⟩ rfl rfl (by decide)).2.2.2
    (by decide) rfl (by decide)
  exact h

/-! ### C8: `find_possible_parents` (rulegen.cpp 1432-1463)

The treestate table is modelled by its size `n` and three per-index
fields: the rule vector, the `is_possible_parent` mark and the
`possible_parents` list.  The other treestate fields are not read by
`find_possible_parents`. -/
structure PPTable where
  n : Nat
  rules : Nat → List Int
  isPP : Nat → Bool
  pps : Nat → List (Nat × Nat)

/-- The initial marking: `is_possible_parent` iff some rule is
`DIR_PARENT`. -/
def pp_init (t : PPTable) : PPTable :=
  { t with isPP := fun j => decide (DIR_PARENT ∈ t.rules j) }

/-- One filling pass: state `j` receives the entry `(i, rid)` for every
marked state `i` whose rule at position `rid` is the (non-negative) state
id `j`, in the iteration order of the source (`i` outer, `rid` inner). -/
def pp_collect (t : PPTable) (j : Nat) : List (Nat × Nat) :=
  (List.range t.n).flatMap fun i =>
    if t.isPP i then
      (t.rules i).enum.filterMap fun p =>
        if p.2 = (j : Int) then some (i, p.1) else none
    else []

/-- One pass of the elimination loop: clear and refill all
`possible_parents`, then unmark every marked state whose list is empty,
counting the changes. -/
def pp_pass (t : PPTable) : PPTable × Nat :=
  ({ t with
      pps := fun j => pp_collect t j
      isPP := fun j =>
        if t.isPP j = true ∧ pp_collect t j = [] then false else t.isPP j },
   (List.range t.n).countP fun j => t.isPP j && decide (pp_collect t j = []))

/-- The elimination loop: repeat `pp_pass` until a pass makes no change. -/
def pp_loop : Nat → PPTable → PPTable
  | 0, t => t
  | fuel + 1, t =>
    if (pp_pass t).2 = 0 then (pp_pass t).1 else pp_loop fuel (pp_pass t).1

def find_possible_parents (t : PPTable) : PPTable :=
  pp_loop (t.n + 1) (pp_init t)

def ppCount (t : PPTable) : Nat := (List.range t.n).countP t.isPP

theorem countP_split (l : List Nat) (A B : Nat → Bool) :
    l.countP A = l.countP (fun j => A j && B j) +
      l.countP (fun j => A j && !B j) := by
  induction l with
  | nil => simp
  | cons x xs ih =>
    by_cases hA : A x <;> by_cases hB : B x <;>
      simp [List.countP_cons, hA, hB, ih] <;> omega

theorem pp_pass_count (t : PPTable) :
    ppCount (pp_pass t).1 + (pp_pass t).2 = ppCount t := by
  have hsplit := countP_split (List.range t.n) t.isPP
    (fun j => decide (pp_collect t j = []))
  have hcongr : (List.range t.n).countP (pp_pass t).1.isPP =
      (List.range t.n).countP
        (fun j => t.isPP j && !(decide (pp_collect t j = []))) := by
    apply List.countP_congr
    intro a _
    by_cases h1 : t.isPP a = true <;> by_cases h2 : pp_collect t a = [] <;>
      simp [pp_pass, h1, h2]
  have e1 : ppCount (pp_pass t).1 = (List.range t.n).countP
      (fun j => t.isPP j && !(decide (pp_collect t j = []))) := hcongr
  have e2 : (pp_pass t).2 = (List.range t.n).countP
      (fun j => t.isPP j && decide (pp_collect t j = [])) := rfl
  have e3 : ppCount t = (List.range t.n).countP t.isPP := rfl
  rw [e1, e2, e3]
  omega

theorem pp_collect_mem (t : PPTable) (j : Nat) (pe : Nat × Nat)
    (h : pe ∈ pp_collect t j) :
    pe.1 < t.n ∧ t.isPP pe.1 = true ∧
      (t.rules pe.1).get? pe.2 = some (j : Int) := by
  unfold pp_collect at h
  rw [List.mem_flatMap] at h
  obtain ⟨i, hi, hmem⟩ := h
  by_cases hpp : t.isPP i = true
  · rw [if_pos hpp, List.mem_filterMap] at hmem
    obtain ⟨p, hp, heq⟩ := hmem
    by_cases hc : p.2 = (j : Int)
    · rw [if_pos hc] at heq
      obtain rfl := Option.some_injective _ heq
      refine ⟨List.mem_range.mp hi, hpp, ?_⟩
      rw [List.get?_eq_getElem?]
      have := List.mem_enum_iff_getElem?.mp hp
      rw [this, hc]
    · rw [if_neg hc] at heq
      exact absurd heq (by simp)
  · rw [if_neg hpp] at hmem
    exact absurd hmem (by simp)

theorem pp_pass_zero_good (t : PPTable) (h : (pp_pass t).2 = 0) (j : Nat)
    (hj : j < t.n) (hm : (pp_pass t).1.isPP j = true) :
    (pp_pass t).1.pps j ≠ [] ∧
      ∀ pe ∈ (pp_pass t).1.pps j, pe.1 < t.n ∧
        (pp_pass t).1.isPP pe.1 = true ∧
        ((pp_pass t).1.rules pe.1).get? pe.2 = some (j : Int) := by
  have hz : ∀ a ∈ List.range t.n,
      ¬(t.isPP a && decide (pp_collect t a = [])) = true := by
    rw [← List.countP_eq_zero]
    exact h
  have hkeep : ∀ a, a < t.n → t.isPP a = true → pp_collect t a ≠ [] := by
    intro a ha hppa hemp
    exact hz a (List.mem_range.mpr ha) (by simp [hppa, hemp])
  have hstay : ∀ a, a < t.n → t.isPP a = true →
      (pp_pass t).1.isPP a = true := by
    intro a ha hppa
    have : ¬(t.isPP a = true ∧ pp_collect t a = []) := by
      intro ⟨_, h2⟩
      exact hkeep a ha hppa h2
    simp only [pp_pass, this, if_false, ite_false]
    exact hppa
  have hmj : t.isPP j = true := by
    by_contra hc
    have : (pp_pass t).1.isPP j = t.isPP j := by
      simp only [pp_pass]
      rw [if_neg]
      intro ⟨h1, _⟩
      exact hc h1
    rw [this] at hm
    exact hc hm
  constructor
  · show pp_collect t j ≠ []
    exact hkeep j hj hmj
  · intro pe hpe
    have hpe' : pe ∈ pp_collect t j := hpe
    obtain ⟨h1, h2, h3⟩ := pp_collect_mem t j pe hpe'
    exact ⟨h1, hstay pe.1 h1 h2, h3⟩

theorem pp_loop_spec : ∀ fuel t, ppCount t < fuel →
    (pp_loop fuel t).n = t.n ∧ (pp_loop fuel t).rules = t.rules ∧
    ∀ j, j < t.n → (pp_loop fuel t).isPP j = true →
      (pp_loop fuel t).pps j ≠ [] ∧
      ∀ pe ∈ (pp_loop fuel t).pps j, pe.1 < t.n ∧
        (pp_loop fuel t).isPP pe.1 = true ∧
        ((pp_loop fuel t).rules pe.1).get? pe.2 = some (j : Int) := by
  intro fuel
  induction fuel with
  | zero => intro t ht; omega
  | succ f ih =>
    intro t ht
    by_cases h : (pp_pass t).2 = 0
    · have hred : pp_loop (f + 1) t = (pp_pass t).1 := by
        simp only [pp_loop, h, if_true, ite_true]
      rw [hred]
      exact ⟨rfl, rfl, fun j hj hm => pp_pass_zero_good t h j hj hm⟩
    · have hred : pp_loop (f + 1) t = pp_loop f (pp_pass t).1 := by
        simp only [pp_loop, h, if_false, ite_false]
      have hcnt := pp_pass_count t
      have hlt : ppCount (pp_pass t).1 < f := by omega
      obtain ⟨hn, hr, hgood⟩ := ih (pp_pass t).1 hlt
      rw [hred]
      refine ⟨hn, hr, ?_⟩
      intro j hj hm
      exact hgood j (by rw [show (pp_pass t).1.n = t.n from rfl]; exact hj) hm

/-- C8, confirmed.  `find_possible_parents` initially marks a state
as possible-parent iff at least one entry of its rule vector is `PARENT`;
then it iterates until a pass removes nothing, each pass unmarking every
marked state whose freshly built `possible_parents` list is empty (no
still-marked state lists it as a child).  On termination every surviving
marked state has a non-empty `possible_parents` list, and every entry
`(p, e)` of that list names a surviving marked state `p` whose rule at
edge `e` is exactly this state — i.e. a parent that contains it as a
child. -/
theorem c8_possible_parents (t : PPTable) :
    (∀ j, (pp_init t).isPP j = true ↔ DIR_PARENT ∈ t.rules j) ∧
    (find_possible_parents t).n = t.n ∧
    (find_possible_parents t).rules = t.rules ∧
    ∀ j, j < t.n → (find_possible_parents t).isPP j = true →
      (find_possible_parents t).pps j ≠ [] ∧
      ∀ pe ∈ (find_possible_parents t).pps j, pe.1 < t.n ∧
        (find_possible_parents t).isPP pe.1 = true ∧
        (t.rules pe.1).get? pe.2 = some (j : Int) := by
  have hcnt : ppCount (pp_init t) < t.n + 1 := by
    have : ppCount (pp_init t) ≤ t.n := by
      have h1 := List.countP_le_length (l := List.range (pp_init t).n)
        ((pp_init t).isPP)
      simpa [ppCount] using h1
    omega
  obtain ⟨hn, hr, hgood⟩ := pp_loop_spec (t.n + 1) (pp_init t) hcnt
  refine ⟨fun j => by simp [pp_init], hn, hr, ?_⟩
  intro j hj hm
  obtain ⟨hne, hval⟩ := hgood j hj hm
  refine ⟨hne, ?_⟩
  intro pe hpe
  obtain ⟨h1, h2, h3⟩ := hval pe hpe
  refine ⟨h1, h2, ?_⟩
  rw [hr] at h3
  exact h3

/-- Concrete table for the C8 witness: two states; state 0 has a `PARENT`
rule, lists state 1 as a child at edge 1 and itself as a child at edge 2;
state 1 has no `PARENT` rule. -/
def ct8 : PPTable :=
  ⟨2, fun j => if j = 0 then [DIR_PARENT, 1, 0] else [0, DIR_LEFT],
   fun _ => false, fun _ => []⟩

/-- Witness for C8: state 0 is initially marked (it has a `PARENT` rule),
survives the elimination, and its final `possible_parents` list is
non-empty. -/
theorem c8_possible_parents_witness :
    ((pp_init ct8).isPP 0 = true ↔ DIR_PARENT ∈ ct8.rules 0) ∧
    (find_possible_parents ct8).pps 0 ≠ [] := by
  have h := c8_possible_parents ct8
  exact ⟨h.1 0, (h.2.2.2 0 (by decide) (by decide)).1⟩

/-! ### C9: `hrmap_rulegen::create_step` (rulegen.cpp 1966-2009)

Heptagons are abstract ids; `stateOf` is the heptagon's `fieldval` (its
tree-state), `distOf` its `distance`, `rules`/`pparents` the finished
tree-state table, and `cross` the `wstep` of a heptspin over the already
materialized edges.  A heptspin rotation (`hs += delta`) reduces the spin
modulo the degree, which equals the length of the state's rule vector.
The uniformly random pick of `hrand_elt` is modelled by an arbitrary
index `choice` into `possible_parents` (reduced mod the length); the
distribution itself lives in the PRNG, outside this embedding.  The
result records the observable effect: the allocation performed by `gen`
plus the `hsconnect`. -/
structure HS where
  hept : Nat
  spin : Int
deriving DecidableEq

structure HGSys where
  rules : Nat → List Int
  pparents : Nat → List (Nat × Nat)
  stateOf : Nat → Nat
  distOf : Nat → Int
  cross : HS → HS

def htype (sys : HGSys) (h : Nat) : Nat := (sys.rules (sys.stateOf h)).length

def hrot (sys : HGSys) (hs : HS) (d : Int) : HS :=
  ⟨hs.hept, (hs.spin + d) % (htype sys hs.hept : Int)⟩

/-- The consumer rule lookup (`treestates[hs.at->fieldval].rules[hs.spin]`). -/
def get_rule_h (sys : HGSys) (hs : HS) : Int :=
  (sys.rules (sys.stateOf hs.hept)).getD hs.spin.toNat (-99)

inductive StepRes where
  | childNode (state : Int) (dist : Int) (spinConn : Int)
  | parentNode (pstate : Nat) (dist : Int) (edge : Nat)
  | sideways (target : HS)
  | failed
  | fuelOut
deriving DecidableEq

/-- The sideways search of `create_step` for `DIR_LEFT`/`DIR_RIGHT`:
return on the mirror rule `rev`, step (`+= wstep; += delta`) on the same
rule, `DIR_PARENT`, or a child id, fail otherwise. -/
def side_loop (sys : HGSys) (r rev delta : Int) : Nat → HS → StepRes
  | 0, _ => .fuelOut
  | fuel + 1, hs1 =>
    if get_rule_h sys hs1 = rev then .sideways hs1
    else if get_rule_h sys hs1 = r ∨ get_rule_h sys hs1 = DIR_PARENT ∨
        0 ≤ get_rule_h sys hs1 then
      side_loop sys r rev delta fuel (hrot sys (sys.cross hs1) delta)
    else .failed

/-- The consumer step `create_step` at heptagon `h`, edge `d`. -/
def create_step (sys : HGSys) (h : Nat) (d : Int) (choice : Nat)
    (fuel : Nat) : StepRes :=
  if 0 ≤ get_rule_h sys ⟨h, d⟩ then
    .childNode (get_rule_h sys ⟨h, d⟩) (sys.distOf h + 1) 0
  else if get_rule_h sys ⟨h, d⟩ = DIR_PARENT then
    if (sys.pparents (sys.stateOf h)).isEmpty then .failed
    else
      .parentNode
        ((sys.pparents (sys.stateOf h)).getD
          (choice % (sys.pparents (sys.stateOf h)).length) (0, 0)).1
        (sys.distOf h - 1)
        ((sys.pparents (sys.stateOf h)).getD
          (choice % (sys.pparents (sys.stateOf h)).length) (0, 0)).2
  else if get_rule_h sys ⟨h, d⟩ = DIR_LEFT then
    side_loop sys DIR_LEFT DIR_RIGHT (-1) fuel (hrot sys ⟨h, d⟩ (-1))
  else if get_rule_h sys ⟨h, d⟩ = DIR_RIGHT then
    side_loop sys DIR_RIGHT DIR_LEFT 1 fuel (hrot sys ⟨h, d⟩ 1)
  else .failed

/-- The sequence of positions visited by the sideways search, starting
from the position after the initial `hs1 += delta`. -/
def side_seq (sys : HGSys) (delta : Int) (s0 : HS) : Nat → HS
  | 0 => s0
  | k + 1 => hrot sys (sys.cross (side_seq sys delta s0 k)) delta

/-- Position `j` of the sideways search lets the walk pass through:
its rule is not the mirror, and is the same turn, `PARENT`, or a child. -/
def sidePass (sys : HGSys) (r rev delta : Int) (s0 : HS) (j : Nat) : Prop :=
  get_rule_h sys (side_seq sys delta s0 j) ≠ rev ∧
  (get_rule_h sys (side_seq sys delta s0 j) = r ∨
   get_rule_h sys (side_seq sys delta s0 j) = DIR_PARENT ∨
   0 ≤ get_rule_h sys (side_seq sys delta s0 j))

theorem side_seq_shift (sys : HGSys) (delta : Int) (s0 : HS) :
    ∀ j, side_seq sys delta s0 (j + 1) =
      side_seq sys delta (hrot sys (sys.cross s0) delta) j := by
  intro j
  induction j with
  | zero => rfl
  | succ j ih =>
    show hrot sys (sys.cross (side_seq sys delta s0 (j + 1))) delta = _
    rw [ih]
    rfl

/-- The sideways loop connects to the *first* position whose rule is the
mirror, provided all earlier positions pass through. -/
theorem side_loop_spec (sys : HGSys) (r rev delta : Int) :
    ∀ k fuel s0, k < fuel →
      (∀ j, j < k → sidePass sys r rev delta s0 j) →
      get_rule_h sys (side_seq sys delta s0 k) = rev →
      side_loop sys r rev delta fuel s0 =
        .sideways (side_seq sys delta s0 k) := by
  intro k
  induction k with
  | zero =>
    intro fuel s0 hk _ hrev
    cases fuel with
    | zero => omega
    | succ f =>
      have h0 : side_seq sys delta s0 0 = s0 := rfl
      rw [h0] at hrev ⊢
      simp only [side_loop]
      rw [if_pos hrev]
  | succ k ih =>
    intro fuel s0 hk hpass hrev
    cases fuel with
    | zero => omega
    | succ f =>
      obtain ⟨h0ne, h0pass⟩ := hpass 0 (Nat.succ_pos k)
      have h0 : side_seq sys delta s0 0 = s0 := rfl
      rw [h0] at h0ne h0pass
      simp only [side_loop]
      rw [if_neg h0ne, if_pos h0pass]
      rw [side_seq_shift sys delta s0 k] at hrev
      have hpass' : ∀ j, j < k →
          sidePass sys r rev delta (hrot sys (sys.cross s0) delta) j := by
        intro j hj
        have := hpass (j + 1) (by omega)
        unfold sidePass at this ⊢
        rw [side_seq_shift sys delta s0 j] at this
        exact this
      have := ih f (hrot sys (sys.cross s0) delta) (by omega) hpass' hrev
      rw [this, side_seq_shift sys delta s0 k]

/-- C9, confirmed.  On the finished automaton, for a heptagon `h` at
edge `d`: a non-negative rule allocates a child carrying that state at
distance `parent + 1`, connected at spin 0; a `PARENT` rule picks an
entry of the state's `possible_parents` (any index is reachable; the
uniform choice lives in `hrand_elt`) and connects at the recorded edge to
a new parent at distance one less; a `LEFT` (resp. `RIGHT`) rule walks
sideways along the ring and connects to the first position whose rule is
the mirror `RIGHT` (resp. `LEFT`). -/
theorem c9_create_step (sys : HGSys) (h : Nat) (d : Int) (choice : Nat)
    (fuel : Nat) :
    (0 ≤ get_rule_h sys ⟨h, d⟩ →
      create_step sys h d choice fuel =
        .childNode (get_rule_h sys ⟨h, d⟩) (sys.distOf h + 1) 0) ∧
    (get_rule_h sys ⟨h, d⟩ = DIR_PARENT →
      ∀ i, i < (sys.pparents (sys.stateOf h)).length →
        create_step sys h d i fuel =
          .parentNode ((sys.pparents (sys.stateOf h)).getD i (0, 0)).1
            (sys.distOf h - 1)
            ((sys.pparents (sys.stateOf h)).getD i (0, 0)).2) ∧
    (get_rule_h sys ⟨h, d⟩ = DIR_LEFT →
      ∀ k, k < fuel →
        (∀ j, j < k →
          sidePass sys DIR_LEFT DIR_RIGHT (-1) (hrot sys ⟨h, d⟩ (-1)) j) →
        get_rule_h sys (side_seq sys (-1) (hrot sys ⟨h, d⟩ (-1)) k) =
          DIR_RIGHT →
        create_step sys h d choice fuel =
          .sideways (side_seq sys (-1) (hrot sys ⟨h, d⟩ (-1)) k)) ∧
    (get_rule_h sys ⟨h, d⟩ = DIR_RIGHT →
      ∀ k, k < fuel →
        (∀ j, j < k →
          sidePass sys DIR_RIGHT DIR_LEFT 1 (hrot sys ⟨h, d⟩ 1) j) →
        get_rule_h sys (side_seq sys 1 (hrot sys ⟨h, d⟩ 1) k) = DIR_LEFT →
        create_step sys h d choice fuel =
          .sideways (side_seq sys 1 (hrot sys ⟨h, d⟩ 1) k)) := by
  refine ⟨?_, ?_, ?_, ?_⟩
  · intro hr
    unfold create_step
    rw [if_pos hr]
  · intro hr i hi
    unfold create_step
    have hneg : ¬ 0 ≤ get_rule_h sys ⟨h, d⟩ := by
      rw [hr]; decide
    have hne : ¬ (sys.pparents (sys.stateOf h)).isEmpty = true := by
      rw [List.isEmpty_iff]
      intro hc
      rw [hc] at hi
      simp at hi
    rw [if_neg hneg, if_pos hr, if_neg hne,
      Nat.mod_eq_of_lt hi]
  · intro hr k hk hpass hrev
    unfold create_step
    have hneg : ¬ 0 ≤ get_rule_h sys ⟨h, d⟩ := by
      rw [hr]; decide
    have hnp : ¬ get_rule_h sys ⟨h, d⟩ = DIR_PARENT := by
      rw [hr]; decide
    rw [if_neg hneg, if_neg hnp, if_pos hr]
    exact side_loop_spec sys DIR_LEFT DIR_RIGHT (-1) k fuel _ hk hpass hrev
  · intro hr k hk hpass hrev
    unfold create_step
    have hneg : ¬ 0 ≤ get_rule_h sys ⟨h, d⟩ := by
      rw [hr]; decide
    have hnp : ¬ get_rule_h sys ⟨h, d⟩ = DIR_PARENT := by
      rw [hr]; decide
    have hnl : ¬ get_rule_h sys ⟨h, d⟩ = DIR_LEFT := by
      rw [hr]; decide
    rw [if_neg hneg, if_neg hnp, if_neg hnl, if_pos hr]
    exact side_loop_spec sys DIR_RIGHT DIR_LEFT 1 k fuel _ hk hpass hrev

/-- Concrete automaton for the C9 witness: state 0 has a child rule, a
`LEFT` rule whose mirror sits one step to the left, and state 1 has a
`PARENT` rule with one possible parent `(state 0, edge 2)`. -/
def sys9 : HGSys :=
  ⟨fun s => if s = 0 then [DIR_RIGHT, DIR_LEFT, 3] else [DIR_PARENT],
   fun s => if s = 1 then [(0, 2)] else [],
   fun h => if h = 0 then 0 else 1,
   fun _ => 5,
   fun hs => hs⟩

/-- Witness for C9: the three rule kinds at concrete inputs. -/
theorem c9_create_step_witness :
    create_step sys9 0 2 0 1 = .childNode 3 6 0 ∧
    create_step sys9 1 0 0 1 = .parentNode 0 4 2 ∧
    create_step sys9 0 1 0 1 =
      .sideways (side_seq sys9 (-1) (hrot sys9 ⟨0, 1⟩ (-1)) 0) := by
  refine ⟨?_, ?_, ?_⟩
  · have := (c9_create_step sys9 0 2 0 1).1 (by decide)
    rw [this]
    rfl
  · have := (c9_create_step sys9 1 0 0 1).2.1 (by decide) 0 (by decide)
    rw [this]
    rfl
  · exact (c9_create_step sys9 0 1 0 1).2.2.1 (by decide) 0 (by decide)
      (fun j hj => absurd hj (by omega)) (by decide)

/-! ### C5: `check_loops` (rulegen.cpp 300-342)

The two walks around the vertex are driven by three abstract operations
on walkers: `peekCross w` is `w + wstep` when the edge at `w` is
materialized (`peek`), else `none`; `rotP`/`rotM` are `+ 1`/`- 1`.  The
backward step of the source is `pwb = pwb + wstep - 1` guarded by
`pwb.peek()`; the forward step is `pwf++; pwf.peek(); pwf += wstep`.  The
initial `ufind(pw)` is outside the model (walkers are taken
post-compression).  The result records the action taken: `closed` (loop
already known, nothing more), `failed` (the `vertex valence too small`
throw), `unifyQ a b` (`push_unify(a, b)`), `connect a b`
(`connect_and_check(a, b)` followed by `fix_distances`), `quiet` (the
fall-through when both sides stop early), `fuelOut` (exceeding the fuel,
unreachable for the runs described by the theorems). -/
structure VSys (W : Type) where
  peekCross : W → Option W
  rotP : W → W
  rotM : W → W

inductive CLRes (W : Type) where
  | closed : CLRes W
  | failed : CLRes W
  | unifyQ (a b : W) : CLRes W
  | connect (a b : W) : CLRes W
  | quiet : CLRes W
  | fuelOut : CLRes W
deriving DecidableEq

/-- The backward loop of `check_loops`.  `pwf` is the start walker (the
loop compares `pwb == pwf` against it), `pwb` the moving walker, `steps`
the shared step counter.  `Sum.inl` is the `break` on an open edge. -/
def loopB {W : Type} [DecidableEq W] (sys : VSys W) (valence : Nat) (pwf : W) :
    Nat → W → Nat → (W × Nat) ⊕ CLRes W
  | 0, _, _ => Sum.inr .fuelOut
  | fuel + 1, pwb, steps =>
    match sys.peekCross pwb with
    | none => Sum.inl (pwb, steps)
    | some x =>
      if sys.rotM x = pwf then
        (if steps + 1 = valence then Sum.inr .closed else Sum.inr .failed)
      else if steps + 1 = valence then Sum.inr (.unifyQ pwf (sys.rotM x))
      else loopB sys valence pwf fuel (sys.rotM x) (steps + 1)

/-- The forward loop of `check_loops`.  `pwb` is the walker where the
backward loop stopped, `pwf` the moving walker; the `break` leaves `pwf`
already rotated by `+1`. -/
def loopF {W : Type} [DecidableEq W] (sys : VSys W) (valence : Nat) (pwb : W) :
    Nat → W → Nat → (W × Nat) ⊕ CLRes W
  | 0, _, _ => Sum.inr .fuelOut
  | fuel + 1, pwf, steps =>
    match sys.peekCross (sys.rotP pwf) with
    | none => Sum.inl (sys.rotP pwf, steps)
    | some x =>
      if x = pwb then
        (if steps + 1 = valence then Sum.inr .closed else Sum.inr .failed)
      else if steps + 1 = valence then Sum.inr (.unifyQ x pwb)
      else loopF sys valence pwb fuel x (steps + 1)

/-- The vertex check `check_loops`: run the backward loop, then the forward loop, then
connect the two open ends when exactly `valence - 1` steps were made
(the comparison is in ℤ, as in the `int` source). -/
def check_loops {W : Type} [DecidableEq W] (sys : VSys W) (valence : Nat)
    (pw : W) : CLRes W :=
  match loopB sys valence pw valence pw 0 with
  | Sum.inr r => r
  | Sum.inl bres =>
    match loopF sys valence bres.1 valence pw bres.2 with
    | Sum.inr r => r
    | Sum.inl fres =>
      if (fres.2 : Int) = (valence : Int) - 1 then .connect bres.1 fres.1
      else .quiet

/-- Iterated fallible stepping, used to describe the two walks. -/
def iterOpt {W : Type} (step : W → Option W) (w : W) : Nat → Option W
  | 0 => some w
  | n + 1 => (iterOpt step w n).bind step

/-- Position of the backward walk after `n` steps. -/
def bpos {W : Type} (sys : VSys W) (pw : W) (n : Nat) : Option W :=
  iterOpt (fun w => (sys.peekCross w).map sys.rotM) pw n

/-- Position of the forward walk after `n` crossings. -/
def fpos {W : Type} (sys : VSys W) (pw : W) (n : Nat) : Option W :=
  iterOpt (fun w => sys.peekCross (sys.rotP w)) pw n

theorem iterOpt_some_of_le {W : Type} (step : W → Option W) (w : W) :
    ∀ m k, k ≤ m → (iterOpt step w m).isSome → (iterOpt step w k).isSome := by
  intro m
  induction m with
  | zero =>
    intro k hk h
    interval_cases k
    exact h
  | succ m ih =>
    intro k hk h
    rcases Nat.lt_or_ge k (m + 1) with hlt | hge
    · apply ih k (by omega)
      show (iterOpt step w m).isSome
      cases hm : iterOpt step w m with
      | none => rw [show iterOpt step w (m + 1) = (iterOpt step w m).bind step
          from rfl, hm] at h; simp at h
      | some u => simp
    · have : k = m + 1 := by omega
      rw [this]
      exact h

theorem bpos_some_of_le {W : Type} (sys : VSys W) (pw : W) (m k : Nat)
    (hk : k ≤ m) (h : (bpos sys pw m).isSome) : (bpos sys pw k).isSome :=
  iterOpt_some_of_le _ pw m k hk h

theorem fpos_some_of_le {W : Type} (sys : VSys W) (pw : W) (m k : Nat)
    (hk : k ≤ m) (h : (fpos sys pw m).isSome) : (fpos sys pw k).isSome :=
  iterOpt_some_of_le _ pw m k hk h

theorem bpos_succ {W : Type} (sys : VSys W) (pw : W) (j : Nat) (u : W)
    (h : bpos sys pw j = some u) :
    bpos sys pw (j + 1) = (sys.peekCross u).map sys.rotM := by
  show (bpos sys pw j).bind _ = _
  rw [h]
  rfl

theorem fpos_succ {W : Type} (sys : VSys W) (pw : W) (j : Nat) (u : W)
    (h : fpos sys pw j = some u) :
    fpos sys pw (j + 1) = sys.peekCross (sys.rotP u) := by
  show (fpos sys pw j).bind _ = _
  rw [h]
  rfl

/-- The backward loop, when the walk first returns to the start at step
`s ≤ valence`: the loop reports `closed` when `s = valence` and fails
(`vertex valence too small`) when `s < valence`. -/
theorem loopB_returns {W : Type} [DecidableEq W] (sys : VSys W)
    (valence : Nat) (pw : W) (s : Nat) (hsv : s ≤ valence)
    (hret : bpos sys pw s = some pw)
    (hfirst : ∀ i, 0 < i → i < s → bpos sys pw i ≠ some pw) :
    ∀ fuel j pwb, j < s → bpos sys pw j = some pwb → s - j ≤ fuel →
      loopB sys valence pw fuel pwb j =
        Sum.inr (if s = valence then CLRes.closed else CLRes.failed) := by
  intro fuel
  induction fuel with
  | zero => intro j pwb hj _ hfuel; omega
  | succ f ih =>
    intro j pwb hj hbj hfuel
    have hj1 : (bpos sys pw (j + 1)).isSome :=
      bpos_some_of_le sys pw s (j + 1) (by omega) (by rw [hret]; rfl)
    obtain ⟨v, hv⟩ := Option.isSome_iff_exists.mp hj1
    have hstep : (sys.peekCross pwb).map sys.rotM = some v := by
      rw [← bpos_succ sys pw j pwb hbj]
      exact hv
    obtain ⟨x, hx, hrx⟩ := Option.map_eq_some'.mp hstep
    simp only [loopB, hx]
    by_cases hj1s : j + 1 = s
    · have hvpw : v = pw := by
        rw [hj1s] at hv
        rw [hret] at hv
        exact (Option.some_injective _ hv).symm
      rw [if_pos (by rw [hrx, hvpw]), hj1s]
      by_cases hsveq : s = valence <;> simp [hsveq]
    · have hvne : ¬ sys.rotM x = pw := by
        rw [hrx]
        intro hc
        exact hfirst (j + 1) (by omega) (by omega) (by rw [hv, hc])
      rw [if_neg hvne, if_neg (show ¬ (j + 1 = valence) by omega)]
      exact ih (j + 1) (sys.rotM x) (by omega)
        (by rw [hrx]; exact hv) (by omega)

/-- The backward loop, when the walk completes `valence` steps without
returning to the start: it enqueues the unification of the start with the
final walker. -/
theorem loopB_completes {W : Type} [DecidableEq W] (sys : VSys W)
    (valence : Nat) (pw : W) (w : W)
    (hw : bpos sys pw valence = some w)
    (hnr : ∀ i, 0 < i → i ≤ valence → bpos sys pw i ≠ some pw) :
    ∀ fuel j pwb, j < valence → bpos sys pw j = some pwb →
      valence - j ≤ fuel →
      loopB sys valence pw fuel pwb j = Sum.inr (CLRes.unifyQ pw w) := by
  intro fuel
  induction fuel with
  | zero => intro j pwb hj _ hfuel; omega
  | succ f ih =>
    intro j pwb hj hbj hfuel
    have hj1 : (bpos sys pw (j + 1)).isSome :=
      bpos_some_of_le sys pw valence (j + 1) (by omega) (by rw [hw]; rfl)
    obtain ⟨v, hv⟩ := Option.isSome_iff_exists.mp hj1
    have hstep : (sys.peekCross pwb).map sys.rotM = some v := by
      rw [← bpos_succ sys pw j pwb hbj]
      exact hv
    obtain ⟨x, hx, hrx⟩ := Option.map_eq_some'.mp hstep
    simp only [loopB, hx]
    have hvne : ¬ sys.rotM x = pw := by
      rw [hrx]
      intro hc
      exact hnr (j + 1) (by omega) (by omega) (by rw [hv, hc])
    rw [if_neg hvne]
    by_cases hj1v : j + 1 = valence
    · rw [if_pos hj1v]
      have hvw : v = w := by
        rw [hj1v] at hv
        rw [hw] at hv
        exact (Option.some_injective _ hv).symm
      rw [hrx, hvw]
    · rw [if_neg hj1v]
      exact ih (j + 1) (sys.rotM x) (by omega)
        (by rw [hrx]; exact hv) (by omega)

/-- The backward loop, when the walk hits an open edge at step `b` before
returning and before completing `valence` steps: it breaks with the
stopped walker and the step count. -/
theorem loopB_breaks {W : Type} [DecidableEq W] (sys : VSys W)
    (valence : Nat) (pw : W) (b : Nat) (wb : W)
    (hb : bpos sys pw b = some wb) (hopen : sys.peekCross wb = none)
    (hbv : b < valence)
    (hnr : ∀ i, 0 < i → i ≤ b → bpos sys pw i ≠ some pw) :
    ∀ fuel j pwb, j ≤ b → bpos sys pw j = some pwb → b - j < fuel →
      loopB sys valence pw fuel pwb j = Sum.inl (wb, b) := by
  intro fuel
  induction fuel with
  | zero => intro j pwb hj _ hfuel; omega
  | succ f ih =>
    intro j pwb hj hbj hfuel
    by_cases hjb : j = b
    · have hpwb : pwb = wb := by
        rw [hjb] at hbj
        rw [hb] at hbj
        exact (Option.some_injective _ hbj).symm
      simp only [loopB, hpwb, hopen]
      rw [hjb]
    · have hj1 : (bpos sys pw (j + 1)).isSome :=
        bpos_some_of_le sys pw b (j + 1) (by omega) (by rw [hb]; rfl)
      obtain ⟨v, hv⟩ := Option.isSome_iff_exists.mp hj1
      have hstep : (sys.peekCross pwb).map sys.rotM = some v := by
        rw [← bpos_succ sys pw j pwb hbj]
        exact hv
      obtain ⟨x, hx, hrx⟩ := Option.map_eq_some'.mp hstep
      simp only [loopB, hx]
      have hvne : ¬ sys.rotM x = pw := by
        rw [hrx]
        intro hc
        exact hnr (j + 1) (by omega) (by omega) (by rw [hv, hc])
      rw [if_neg hvne, if_neg (show ¬ (j + 1 = valence) by omega)]
      exact ih (j + 1) (sys.rotM x) (by omega)
        (by rw [hrx]; exact hv) (by omega)

/-- The forward loop, when the forward walk first reaches the stopped
backward walker `wb` at crossing `s` with `b + s ≤ valence`. -/
theorem loopF_returns {W : Type} [DecidableEq W] (sys : VSys W)
    (valence : Nat) (pw : W) (b : Nat) (wb : W) (s : Nat)
    (hret : fpos sys pw s = some wb) (hbs : b + s ≤ valence)
    (hfirst : ∀ i, 0 < i → i < s → fpos sys pw i ≠ some wb) :
    ∀ fuel t pwfv, t < s → fpos sys pw t = some pwfv → s - t ≤ fuel →
      loopF sys valence wb fuel pwfv (b + t) =
        Sum.inr (if b + s = valence then CLRes.closed else CLRes.failed) := by
  intro fuel
  induction fuel with
  | zero => intro t pwfv ht _ hfuel; omega
  | succ f ih =>
    intro t pwfv ht hft hfuel
    have ht1 : (fpos sys pw (t + 1)).isSome :=
      fpos_some_of_le sys pw s (t + 1) (by omega) (by rw [hret]; rfl)
    obtain ⟨v, hv⟩ := Option.isSome_iff_exists.mp ht1
    have hstep : sys.peekCross (sys.rotP pwfv) = some v := by
      rw [← fpos_succ sys pw t pwfv hft]
      exact hv
    simp only [loopF, hstep]
    by_cases ht1s : t + 1 = s
    · have hvwb : v = wb := by
        rw [ht1s] at hv
        rw [hret] at hv
        exact (Option.some_injective _ hv).symm
      rw [if_pos hvwb]
      have harith : b + t + 1 = b + s := by omega
      rw [harith]
      by_cases hsveq : b + s = valence <;> simp [hsveq]
    · have hvne : ¬ v = wb := by
        intro hc
        exact hfirst (t + 1) (by omega) (by omega) (by rw [hv, hc])
      rw [if_neg hvne, if_neg (show ¬ (b + t + 1 = valence) by omega)]
      exact ih (t + 1) v (by omega) hv (by omega)

/-- The forward loop, when the forward walk completes the remaining
`valence - b` steps without reaching `wb`: it enqueues the unification of
the final forward walker with `wb`. -/
theorem loopF_completes {W : Type} [DecidableEq W] (sys : VSys W)
    (valence : Nat) (pw : W) (b : Nat) (wb : W) (hbv : b < valence) (w' : W)
    (hw : fpos sys pw (valence - b) = some w')
    (hnr : ∀ i, 0 < i → i ≤ valence - b → fpos sys pw i ≠ some wb) :
    ∀ fuel t pwfv, t < valence - b → fpos sys pw t = some pwfv →
      (valence - b) - t ≤ fuel →
      loopF sys valence wb fuel pwfv (b + t) =
        Sum.inr (CLRes.unifyQ w' wb) := by
  intro fuel
  induction fuel with
  | zero => intro t pwfv ht _ hfuel; omega
  | succ f ih =>
    intro t pwfv ht hft hfuel
    have ht1 : (fpos sys pw (t + 1)).isSome :=
      fpos_some_of_le sys pw (valence - b) (t + 1) (by omega) (by rw [hw]; rfl)
    obtain ⟨v, hv⟩ := Option.isSome_iff_exists.mp ht1
    have hstep : sys.peekCross (sys.rotP pwfv) = some v := by
      rw [← fpos_succ sys pw t pwfv hft]
      exact hv
    simp only [loopF, hstep]
    have hvne : ¬ v = wb := by
      intro hc
      exact hnr (t + 1) (by omega) (by omega) (by rw [hv, hc])
    rw [if_neg hvne]
    by_cases ht1v : t + 1 = valence - b
    · rw [if_pos (show b + t + 1 = valence by omega)]
      have hvw : v = w' := by
        rw [ht1v] at hv
        rw [hw] at hv
        exact (Option.some_injective _ hv).symm
      rw [hvw]
    · rw [if_neg (show ¬ (b + t + 1 = valence) by omega)]
      exact ih (t + 1) v (by omega) hv (by omega)

/-- The forward loop, when the forward walk hits an open edge after `m`
crossings, without reaching `wb` and with `b + m < valence`: it breaks
with the rotated walker and the total step count `b + m`. -/
theorem loopF_breaks {W : Type} [DecidableEq W] (sys : VSys W)
    (valence : Nat) (pw : W) (b : Nat) (wb : W) (m : Nat) (wm : W)
    (hm : fpos sys pw m = some wm)
    (hopen : sys.peekCross (sys.rotP wm) = none)
    (hnr : ∀ i, 0 < i → i ≤ m → fpos sys pw i ≠ some wb)
    (hmb : b + m < valence) :
    ∀ fuel t pwfv, t ≤ m → fpos sys pw t = some pwfv → m - t < fuel →
      loopF sys valence wb fuel pwfv (b + t) =
        Sum.inl (sys.rotP wm, b + m) := by
  intro fuel
  induction fuel with
  | zero => intro t pwfv ht _ hfuel; omega
  | succ f ih =>
    intro t pwfv ht hft hfuel
    by_cases htm : t = m
    · have hpw : pwfv = wm := by
        rw [htm] at hft
        rw [hm] at hft
        exact (Option.some_injective _ hft).symm
      simp only [loopF, hpw, hopen]
      rw [htm]
    · have ht1 : (fpos sys pw (t + 1)).isSome :=
        fpos_some_of_le sys pw m (t + 1) (by omega) (by rw [hm]; rfl)
      obtain ⟨v, hv⟩ := Option.isSome_iff_exists.mp ht1
      have hstep : sys.peekCross (sys.rotP pwfv) = some v := by
        rw [← fpos_succ sys pw t pwfv hft]
        exact hv
      simp only [loopF, hstep]
      have hvne : ¬ v = wb := by
        intro hc
        exact hnr (t + 1) (by omega) (by omega) (by rw [hv, hc])
      rw [if_neg hvne, if_neg (show ¬ (b + t + 1 = valence) by omega)]
      exact ih (t + 1) v (by omega) hv (by omega)

/-- System for the C5 counterexample: a walker whose vertex has no
materialized edge on either side. -/
def sysU : VSys Unit := ⟨fun _ => none, id, id⟩

/-- C5 counterexample to the claim as stated.  With valence 3 and
both directions hitting an open edge immediately (0 steps, and
`0 ≠ valence - 1 = 2`), `check_loops` quietly does nothing: the outcome is
none of the three enumerated ones and is *not* a failure, contradicting
"every other outcome fails with an error". -/
theorem c5_counterexample :
    check_loops sysU 3 () = CLRes.quiet ∧
    ¬ (check_loops sysU 3 () = CLRes.closed ∨
       check_loops sysU 3 () = CLRes.failed ∨
       (∃ a b : Unit, check_loops sysU 3 () = CLRes.unifyQ a b) ∨
       (∃ a b : Unit, check_loops sysU 3 () = CLRes.connect a b)) := by
  have hq : check_loops sysU 3 () = CLRes.quiet := rfl
  refine ⟨hq, ?_⟩
  rintro (h | h | ⟨a, b, h⟩ | ⟨a, b, h⟩) <;> rw [hq] at h <;> simp at h

/-- C5, amended.  `check_loops(w)` with vertex valence `v` ends in
exactly one of *four* ways per side: (1) if the walk first returns to the
start at step `s`, the call does nothing more when `s = v` and fails when
`s < v`; (2) if a walk completes `v` steps without returning, the
unification of the two ends is enqueued; (3) if both directions hit open
edges after a total of exactly `v - 1` steps, the two open ends are
connected (and distances fixed); and (4) if both directions hit open
edges after fewer than `v - 1` total steps, the call does nothing — the
vertex is simply not yet complete.  The conjuncts below cover the
backward side (first return, completion, break) and, after a backward
break at step `b`, the forward side (first return to the stopped walker,
completion of the remaining `v - b` steps, break after `m` crossings with
connect-or-nothing decided by `b + m = v - 1`). -/
theorem c5_amended {W : Type} [DecidableEq W] (sys : VSys W) (valence : Nat)
    (pw : W) :
    (∀ s, 0 < s → s ≤ valence → bpos sys pw s = some pw →
      (∀ i, 0 < i → i < s → bpos sys pw i ≠ some pw) →
      check_loops sys valence pw =
        (if s = valence then CLRes.closed else CLRes.failed)) ∧
    (∀ w, 0 < valence → bpos sys pw valence = some w →
      (∀ i, 0 < i → i ≤ valence → bpos sys pw i ≠ some pw) →
      check_loops sys valence pw = CLRes.unifyQ pw w) ∧
    (∀ b wb, bpos sys pw b = some wb → sys.peekCross wb = none →
      b < valence →
      (∀ i, 0 < i → i ≤ b → bpos sys pw i ≠ some pw) →
      (∀ s, 0 < s → b + s ≤ valence → fpos sys pw s = some wb →
        (∀ i, 0 < i → i < s → fpos sys pw i ≠ some wb) →
        check_loops sys valence pw =
          (if b + s = valence then CLRes.closed else CLRes.failed)) ∧
      (∀ w', fpos sys pw (valence - b) = some w' →
        (∀ i, 0 < i → i ≤ valence - b → fpos sys pw i ≠ some wb) →
        check_loops sys valence pw = CLRes.unifyQ w' wb) ∧
      (∀ m wm, fpos sys pw m = some wm →
        sys.peekCross (sys.rotP wm) = none →
        (∀ i, 0 < i → i ≤ m → fpos sys pw i ≠ some wb) →
        b + m < valence →
        check_loops sys valence pw =
          (if b + m + 1 = valence then CLRes.connect wb (sys.rotP wm)
           else CLRes.quiet))) := by
  refine ⟨?_, ?_, ?_⟩
  · intro s hs hsv hret hfirst
    have hB := loopB_returns sys valence pw s hsv hret hfirst valence 0 pw hs
      rfl (by omega)
    simp only [check_loops, hB]
  · intro w hval hw hnr
    have hB := loopB_completes sys valence pw w hw hnr valence 0 pw hval rfl
      (by omega)
    simp only [check_loops, hB]
  · intro b wb hb hopen hbv hnr
    have hB := loopB_breaks sys valence pw b wb hb hopen hbv hnr valence 0 pw
      (by omega) rfl (by omega)
    refine ⟨?_, ?_, ?_⟩
    · intro s hs hbs hret hfirst
      have hF := loopF_returns sys valence pw b wb s hret hbs hfirst valence
        0 pw hs rfl (by omega)
      have hF' : loopF sys valence wb valence pw b =
          Sum.inr (if b + s = valence then CLRes.closed else CLRes.failed) := by
        simpa using hF
      simp only [check_loops, hB, hF']
    · intro w' hw hnr2
      have hF := loopF_completes sys valence pw b wb hbv w' hw hnr2 valence
        0 pw (by omega) rfl (by omega)
      have hF' : loopF sys valence wb valence pw b =
          Sum.inr (CLRes.unifyQ w' wb) := by
        simpa using hF
      simp only [check_loops, hB, hF']
    · intro m wm hm hopen2 hnr2 hmb
      have hF := loopF_breaks sys valence pw b wb m wm hm hopen2 hnr2 hmb
        valence 0 pw (by omega) rfl (by omega)
      have hF' : loopF sys valence wb valence pw b =
          Sum.inl (sys.rotP wm, b + m) := by
        simpa using hF
      simp only [check_loops, hB, hF']
      by_cases hc : b + m + 1 = valence
      · rw [if_pos (show ((b + m : Nat) : Int) = (valence : Int) - 1 by omega),
          if_pos hc]
      · rw [if_neg (show ¬ ((b + m : Nat) : Int) = (valence : Int) - 1 by
          omega), if_neg hc]

/-- System for the C5 witness: every edge is materialized and the
backward walk cycles 0 → 1 → 2 → 0 around a vertex of valence 3. -/
def sysW5 : VSys (Fin 3) := ⟨fun w => some w, id, fun x => x + 1⟩

/-- Witness for C5: returning to the start after exactly `valence` steps
reports the vertex as already closed. -/
theorem c5_amended_witness :
    check_loops sysW5 3 (0 : Fin 3) = CLRes.closed := by
  have h := (c5_amended sysW5 3 (0 : Fin 3)).1 3 (by decide) (by decide)
    (by decide) (by intro i h1 h2; interval_cases i <;> decide)
  simpa using h

end Rulegen
